import Mathlib

set_option autoImplicit false
set_option maxHeartbeats 1000000

/- Shallow embedding of the request-execution engine of tluyben/multi-llm:
   the retry engine (src/utils/retry.ts), the response parser
   (src/utils/parser.ts), the streaming handlers of the providers, and the
   dispatcher message/policy construction (src/llm.ts). -/

/-- RetryConfig from src/utils/retry.ts.  The source stores JavaScript
numbers; all uses in the verified claims are non-negative integers, so the
fields are embedded as Nat. -/
structure RetryConfig where
  retries : Nat
  retryInterval : Nat
  retryBackoff : Nat
deriving DecidableEq

/-- DEFAULT_RETRY_CONFIG from src/utils/retry.ts. -/
def DEFAULT_RETRY_CONFIG : RetryConfig :=
  { retries := 1, retryInterval := 1000, retryBackoff := 2 }

/-- Message built by the throw in executeWithRetry (src/utils/retry.ts):
a template literal giving
`Failed after (retries) retries( (context)): (cause)`, where the contextMsg
part comes from a JavaScript truthiness test on context — so an absent
context and a supplied empty context string both yield no parenthesized
part. -/
def retryFailureMessage (retries : Nat) (context : Option String) (cause : String) : String :=
  "Failed after " ++ toString retries ++ " retries" ++
    (match context with
     | some c => if c = "" then "" else " (" ++ c ++ ")"
     | none => "") ++ ": " ++ cause

/-- Observable trace of one executeWithRetry run: the final outcome, the
number of attempts made (calls of the operation), and the list of backoff
delays slept, in order. -/
structure RetryTrace (α : Type) where
  result : Except String α
  attempts : Nat
  delays : List Nat

/-- Loop body of executeWithRetry (src/utils/retry.ts).  The effectful
operation is determinized as a function from the attempt index (0-based) to
that attempt's outcome.  `left` counts the retries still allowed, i.e.
`left = config.retries - attempt`; the source's guard
`attempt + 1 >= maxAttempts` (with `maxAttempts = config.retries + 1`) is
exactly `left = 0`. -/
def retryGo {α : Type} (op : Nat → Except String α) (cfg : RetryConfig)
    (context : Option String) : Nat → Nat → RetryTrace α
  | attempt, 0 =>
    match op attempt with
    | .ok v => { result := .ok v, attempts := 1, delays := [] }
    | .error e =>
      { result := .error (retryFailureMessage cfg.retries context e)
        attempts := 1, delays := [] }
  | attempt, left + 1 =>
    match op attempt with
    | .ok v => { result := .ok v, attempts := 1, delays := [] }
    | .error _ =>
      let rest := retryGo op cfg context (attempt + 1) left
      { result := rest.result
        attempts := rest.attempts + 1
        delays := cfg.retryInterval * cfg.retryBackoff ^ attempt :: rest.delays }

/-- executeWithRetry from src/utils/retry.ts, returning the full trace. -/
def executeWithRetry {α : Type} (op : Nat → Except String α) (cfg : RetryConfig)
    (context : Option String) : RetryTrace α :=
  retryGo op cfg context 0 cfg.retries

/- ------------------------------------------------------------------ -/
/- ResponseParser.parseResponse (src/utils/parser.ts). -/
/- ------------------------------------------------------------------ -/

/-- The backtick character (code point 96), the fence delimiter. -/
def btick : Char := Char.ofNat 96

/-- One word character of the JavaScript regex class \w: ASCII letters,
digits and underscore. -/
def isWordChar (c : Char) : Bool :=
  c.isAlpha || c.isDigit || c == '_'

/-- Whitespace removed by JavaScript String.prototype.trim: the ASCII
whitespace characters plus NBSP and the BOM.  (The remaining Unicode space
separators that JS also trims never occur in the verified inputs.) -/
def isJsWS (c : Char) : Bool :=
  c == ' ' || c == '\t' || c == '\n' || c == '\r' ||
  c.toNat == 11 || c.toNat == 12 || c.toNat == 160 || c.toNat == 65279

/-- JavaScript String.prototype.trim on a character list. -/
def jsTrim (s : List Char) : List Char :=
  ((s.dropWhile isJsWS).reverse.dropWhile isJsWS).reverse

/-- Whether the list starts with three backticks, the literal ``` of the
code-block regex. -/
def isFenceMark : List Char → Bool
  | b1 :: b2 :: b3 :: _ => b1 == btick && b2 == btick && b3 == btick
  | _ => false

/-- The three-backtick fence delimiter as a character list. -/
def fenceMark : List Char := [btick, btick, btick]

/-- Splits at the first occurrence of ``` (the lazy body of the code-block
regex runs to the first closing fence): returns the characters before it and
the characters after it, or none when no fence occurs. -/
def findClose : List Char → Option (List Char × List Char)
  | [] => none
  | c :: rest =>
    if isFenceMark (c :: rest) then some ([], rest.drop 2)
    else
      match findClose rest with
      | some (pre, post) => some (c :: pre, post)
      | none => none

/-- Maximal leading run of \w characters (the greedy `(\w*)` language tag)
and the remaining characters. -/
def takeWordRun : List Char → List Char × List Char
  | [] => ([], [])
  | c :: rest =>
    if isWordChar c then
      ((takeWordRun rest).1.cons c, (takeWordRun rest).2)
    else ([], c :: rest)

/-- Attempt of the code-block regex at the current position: three backticks,
a greedy \w* language tag, a mandatory newline, then a lazy body that runs to
the first closing three-backtick fence.  Returns (tag, body, rest after the
closing fence). -/
def matchFenceAt (s : List Char) : Option (List Char × List Char × List Char) :=
  match s with
  | b1 :: b2 :: b3 :: t =>
    if b1 == btick && b2 == btick && b3 == btick then
      match takeWordRun t with
      | (tag, c :: u) =>
        if c == '\n' then
          match findClose u with
          | some (body, rest) => some (tag, body, rest)
          | none => none
        else none
      | (_, []) => none
    else none
  | _ => none

/-- Global scan of the code-block regex, fuel-indexed so that it is
structurally recursive (the fuel is instantiated with the input length, which
always suffices since every step consumes at least one character).  Returns
the (tag, body) pairs of all matches in left-to-right order, together with
the input with every matched region deleted — the source runs the same
pattern twice, once collecting matches with exec and once replacing them with
the empty string. -/
def scanFencesF : Nat → List Char → List (List Char × List Char) × List Char
  | 0, s => ([], s)
  | _ + 1, [] => ([], [])
  | fuel + 1, c :: rest =>
    match matchFenceAt (c :: rest) with
    | some (tag, body, after) =>
      ((tag, body) :: (scanFencesF fuel after).1, (scanFencesF fuel after).2)
    | none =>
      ((scanFencesF fuel rest).1, c :: (scanFencesF fuel rest).2)

/-- Scan of the code-block regex over the whole input. -/
def scanFences (s : List Char) : List (List Char × List Char) × List Char :=
  scanFencesF s.length s

/-- Whether a three-backtick fence occurs anywhere in the list. -/
def hasFence : List Char → Bool
  | [] => false
  | c :: rest => isFenceMark (c :: rest) || hasFence rest

/-- Whether the second list starts with the first (literal search). -/
def startsWithChars : List Char → List Char → Bool
  | [], _ => true
  | _ :: _, [] => false
  | p :: ps, c :: cs => p == c && startsWithChars ps cs

/-- Splits at the first occurrence of the literal `pat`: characters before
the occurrence and characters after it, or none when `pat` does not occur. -/
def splitFirst (pat : List Char) : List Char → Option (List Char × List Char)
  | [] => none
  | c :: rest =>
    if startsWithChars pat (c :: rest) then some ([], (c :: rest).drop pat.length)
    else
      match splitFirst pat rest with
      | some (b, a) => some (c :: b, a)
      | none => none

/-- First match of the non-global regex `opn([\s\S]*?)cls`: the first
occurrence of the opening literal followed by the lazily-first occurrence of
the closing literal.  Returns (text before the match, inner text, text after
the match). -/
def matchTagged (opn cls s : List Char) : Option (List Char × List Char × List Char) :=
  match splitFirst opn s with
  | none => none
  | some (before, afterOpen) =>
    match splitFirst cls afterOpen with
    | none => none
    | some (inner, after) => some (before, inner, after)

/-- The ordered thinkingPatterns list of src/utils/parser.ts, each as an
(opening literal, closing literal) pair. -/
def thinkingPatterns : List (List Char × List Char) :=
  [("<thinking>".toList, "</thinking>".toList),
   ("<thought>".toList, "</thought>".toList),
   ("[thinking]".toList, "[/thinking]".toList)]

/-- The extraction loop for thinking: the first pattern (in order) that
matches anywhere supplies the trimmed inner text, then the loop breaks. -/
def extractThinking : List (List Char × List Char) → List Char → Option (List Char)
  | [], _ => none
  | (o, c) :: ps, s =>
    match matchTagged o c s with
    | some x => some (jsTrim x.2.1)
    | none => extractThinking ps s

/-- String.prototype.replace with a non-global regex and empty replacement:
deletes the first match of the pattern, if any. -/
def removeTagged (o c s : List Char) : List Char :=
  match matchTagged o c s with
  | some x => x.1 ++ x.2.2
  | none => s

/-- Language attached to a code block: the captured tag, or "text" when the
tag is empty (the source's `match[1] || 'text'`). -/
def langOf (tag : List Char) : String :=
  if tag.isEmpty then "text" else String.mk tag

/-- One extracted code block. -/
structure CodeBlock where
  language : String
  code : String
deriving DecidableEq

/-- Tool call entry of ParsedResult (src/types.ts).  The parser never
constructs one; the args payload and the execute closure are omitted from
the embedding since no verified claim inspects them. -/
structure ToolCall where
  id : String
  name : String
deriving DecidableEq

/-- ParsedResult from src/types.ts, as produced by the parser. -/
structure ParsedResult where
  content : String
  codeBlocks : List CodeBlock
  thinking : Option String
  toolCalls : List ToolCall
deriving DecidableEq

/-- ResponseParser.parseResponse from src/utils/parser.ts: extract all code
blocks; extract thinking by trying the three patterns in order against the
original input; clean the content by deleting every code-block match and
then, for each thinking pattern in order, the first match of that pattern;
finally trim. -/
def parseResponse (content : String) : ParsedResult :=
  let cs := content.toList
  let fences := scanFences cs
  let codeBlocks := fences.1.map
    (fun p => { language := langOf p.1, code := String.mk (jsTrim p.2) })
  let thinking := extractThinking thinkingPatterns cs
  let clean := thinkingPatterns.foldl (fun acc p => removeTagged p.1 p.2 acc) fences.2
  { content := String.mk (jsTrim clean)
    codeBlocks := codeBlocks
    thinking := thinking.map String.mk
    toolCalls := [] }

/-- One well-formed fenced region of an input decomposition: the text before
the opening fence, the language tag, and the body between the tag's newline
and the closing fence. -/
structure FenceSeg where
  pre : List Char
  tag : List Char
  body : List Char

/-- The character sequence of one fenced region as the code-block regex
matches it. -/
def fenceRegion (tag body : List Char) : List Char :=
  fenceMark ++ tag ++ '\n' :: body ++ fenceMark

/-- Builds an input from fenced regions interleaved with plain text, ending
with a plain tail. -/
def assembleChars : List FenceSeg → List Char → List Char
  | [], tl => tl
  | s :: rest, tl => s.pre ++ fenceRegion s.tag s.body ++ assembleChars rest tl

/-- Hypotheses under which a decomposition lists exactly the fenced regions
of the input: no stray fence in the plain parts, every tag a \w* run, and no
earlier closing fence inside a body (including one formed together with the
closing delimiter's first two backticks). -/
def WellFencedSeg (s : FenceSeg) : Prop :=
  hasFence s.pre = false ∧ s.tag.all isWordChar = true ∧
    hasFence (s.body ++ [btick, btick]) = false

instance (s : FenceSeg) : Decidable (WellFencedSeg s) := by
  unfold WellFencedSeg
  infer_instance

/-- Content that claim C5 predicts (stated for comparison with the source
behaviour): the input with every fenced region removed and only the one
matched thinking region removed — the first match of the first pattern that
matches — then trimmed. -/
def removeFirstThinkingOnly : List (List Char × List Char) → List Char → List Char
  | [], s => s
  | (o, c) :: ps, s =>
    match matchTagged o c s with
    | some x => x.1 ++ x.2.2
    | none => removeFirstThinkingOnly ps s

/-- Content as described by claim C5 (spec words, for refutation). -/
def contentPerClaimC5 (content : String) : String :=
  String.mk (jsTrim (removeFirstThinkingOnly thinkingPatterns
    (scanFences content.toList).2))

/-- Thinking as described by claim C6 (spec words, for refutation): the
pattern search applied to the input with all fenced regions stripped. -/
def thinkingPerClaimC6 (content : String) : Option String :=
  (extractThinking thinkingPatterns (scanFences content.toList).2).map String.mk

/- ------------------------------------------------------------------ -/
/- Streaming handlers (src/providers/anthropic.ts streamChat and
   src/providers/huggingface.ts simulateStreaming). -/
/- ------------------------------------------------------------------ -/

/-- One decoded data line of the Anthropic SSE stream, abstracted to the two
fields the handler inspects: the event type discriminant and the optional
delta.text payload.  Lines that fail to JSON-parse or carry other shapes are
represented by any value whose type is neither content_block_delta nor
message_stop. -/
structure SSELine where
  ty : String
  deltaText : Option String
deriving DecidableEq

/-- Whether the handler's first condition
`parsed.type === 'content_block_delta' && parsed.delta?.text` holds:
the type matches and the delta text is present and non-empty (the empty
string is falsy in JavaScript). -/
def isDeltaLine (l : SSELine) : Bool :=
  l.ty == "content_block_delta" &&
    (match l.deltaText with
     | some t => !(t == "")
     | none => false)

/-- Observable state of one streaming invocation: the fullContent
accumulator, the delta payloads handed to the sink before and after the
promise resolved, and the fullText captured by the first resolve (none while
still pending). -/
structure StreamRunState where
  fullContent : String
  deltasBefore : List String
  deltasAfter : List String
  result : Option String
deriving DecidableEq

/-- The handler body for one delta: `fullContent += content;
streamCallback(content)`.  The callback invocation is recorded on the
before- or after-resolution list according to whether the promise has
already settled. -/
def anthEmit (st : StreamRunState) (t : String) : StreamRunState :=
  if st.result.isNone then
    { st with fullContent := st.fullContent ++ t, deltasBefore := st.deltasBefore ++ [t] }
  else
    { st with fullContent := st.fullContent ++ t, deltasAfter := st.deltasAfter ++ [t] }

/-- resolve(...) on a JavaScript promise: the first call fixes the value,
later calls are no-ops. -/
def anthResolve (st : StreamRunState) : StreamRunState :=
  match st.result with
  | none => { st with result := some st.fullContent }
  | some _ => st

/-- The data-event handler of AnthropicProvider.streamChat for one transport
chunk, a list of decoded lines: deltas are accumulated and forwarded, a
message_stop line resolves the promise and returns from the handler
(discarding the remaining lines of that same chunk), anything else is
skipped. -/
def anthHandleChunk (st : StreamRunState) : List SSELine → StreamRunState
  | [] => st
  | l :: rest =>
    if isDeltaLine l then anthHandleChunk (anthEmit st (l.deltaText.getD "")) rest
    else if l.ty == "message_stop" then anthResolve st
    else anthHandleChunk st rest

/-- A whole streaming invocation: the chunks arrive in order and each fires
the data handler once. -/
def anthStream (chunks : List (List SSELine)) : StreamRunState :=
  chunks.foldl anthHandleChunk
    { fullContent := "", deltasBefore := [], deltasAfter := [], result := none }

/-- Delta payloads a list of lines contributes, in order: the non-empty
delta texts of its content_block_delta lines. -/
def lineDeltas (ls : List SSELine) : List String :=
  ls.filterMap (fun l => if isDeltaLine l then some (l.deltaText.getD "") else none)

/-- JavaScript String.prototype.split(' '): splits on every single space,
producing [""] for the empty string and empty fields for consecutive
spaces. -/
def splitOnSpace : List Char → List (List Char)
  | [] => [[]]
  | c :: rest =>
    if c = ' ' then [] :: splitOnSpace rest
    else
      match splitOnSpace rest with
      | w :: ws => (c :: w) :: ws
      | [] => [[c]]

/-- Inverse of the split: rejoins the fields with single spaces. -/
def joinWithSpace : List (List Char) → List Char
  | [] => []
  | [w] => w
  | w :: ws => w ++ ' ' :: joinWithSpace ws

/-- The chunking of HuggingFaceProvider.simulateStreaming: every word except
the last is re-suffixed with the separating space
(`words[i] + (i < words.length - 1 ? ' ' : '')`). -/
def chunksOf : List (List Char) → List (List Char)
  | [] => []
  | [w] => [w]
  | w :: ws => (w ++ [' ']) :: chunksOf ws

/-- simulateStreaming from src/providers/huggingface.ts: the list of chunk
payloads passed to the stream callback, in order (the pacing delay between
chunks carries no data and is not modelled). -/
def simulateStreaming (content : String) : List String :=
  (chunksOf (splitOnSpace content.toList)).map String.mk

/- ------------------------------------------------------------------ -/
/- Dispatcher LLM.chat (src/llm.ts) and getRetryConfig (src/utils/retry.ts). -/
/- ------------------------------------------------------------------ -/

/-- Message roles of ChatMessage (src/types.ts). -/
inductive Role where
  | user
  | assistant
  | system
deriving DecidableEq

/-- ChatMessage from src/types.ts. -/
structure ChatMessage where
  role : Role
  content : String
deriving DecidableEq

/-- The fields of ChatOptions that LLM.chat and getRetryConfig read; the
sampling controls and passthrough keys are never inspected by the dispatcher
logic under verification and are omitted. -/
structure ChatOptions where
  system : Option String := none
  retries : Option Nat := none
  retryInterval : Option Nat := none
  retryBackoff : Option Nat := none
deriving DecidableEq

/-- getRetryConfig from src/utils/retry.ts: per-field nullish coalescing
against DEFAULT_RETRY_CONFIG. -/
def getRetryConfig (options : ChatOptions) : RetryConfig :=
  { retries := options.retries.getD DEFAULT_RETRY_CONFIG.retries
    retryInterval := options.retryInterval.getD DEFAULT_RETRY_CONFIG.retryInterval
    retryBackoff := options.retryBackoff.getD DEFAULT_RETRY_CONFIG.retryBackoff }

/-- The message sequence LLM.chat builds: `[{role: user, content}]`, with a
system message unshifted in front when `if (options.system)` holds — a
JavaScript truthiness test, so an empty system string is not prepended. -/
def buildChatMessages (content : String) (options : ChatOptions) : List ChatMessage :=
  let messages := [{ role := Role.user, content := content }]
  match options.system with
  | some s => if s = "" then messages else { role := Role.system, content := s } :: messages
  | none => messages

/-- What LLM.chat hands to executeWithRetry: the transport call closed over
the built message sequence, and the derived retry policy. -/
structure LLMChatCall where
  messages : List ChatMessage
  config : RetryConfig
deriving DecidableEq

/-- LLM.chat from src/llm.ts, restricted to its observable inputs to the
retry engine and the provider transport. -/
def llmChat (content : String) (options : ChatOptions) : LLMChatCall :=
  { messages := buildChatMessages content options
    config := getRetryConfig options }

/-- Message sequence as described by claim C9 (spec words, for refutation):
the system message is prepended exactly when options.system is present. -/
def messagesPerClaimC9 (content : String) (options : ChatOptions) : List ChatMessage :=
  match options.system with
  | some s => [{ role := Role.system, content := s }, { role := Role.user, content := content }]
  | none => [{ role := Role.user, content := content }]

/- ------------------------------------------------------------------ -/
/- Theorems for the retry engine (claims C1, C2, C3). -/
/- ------------------------------------------------------------------ -/

theorem retryGo_attempts_pos {α : Type} (op : Nat → Except String α) (cfg : RetryConfig)
    (ctx : Option String) (attempt left : Nat) :
    1 ≤ (retryGo op cfg ctx attempt left).attempts := by
  cases left with
  | zero => cases h : op attempt <;> simp [retryGo, h]
  | succ l => cases h : op attempt <;> simp [retryGo, h]

theorem retryGo_succeeds {α : Type} (op : Nat → Except String α) (cfg : RetryConfig)
    (ctx : Option String) (v : α) :
    ∀ (n attempt left : Nat),
      (∀ i, i < n → ∃ e, op (attempt + i) = .error e) →
      op (attempt + n) = .ok v → n ≤ left →
      (retryGo op cfg ctx attempt left).result = .ok v ∧
      (retryGo op cfg ctx attempt left).attempts = n + 1 := by
  intro n
  induction n with
  | zero =>
    intro attempt left _ hsucc _
    have hop : op attempt = .ok v := by simpa using hsucc
    cases left <;> simp [retryGo, hop]
  | succ m ih =>
    intro attempt left hfail hsucc hle
    obtain ⟨e, he⟩ := hfail 0 (Nat.succ_pos m)
    have hop : op attempt = .error e := by simpa using he
    obtain ⟨left', rfl⟩ : ∃ l, left = l + 1 := by
      cases left with
      | zero => omega
      | succ l => exact ⟨l, rfl⟩
    have hfail' : ∀ i, i < m → ∃ e, op (attempt + 1 + i) = .error e := by
      intro i hi
      have := hfail (i + 1) (by omega)
      simpa [Nat.add_assoc, Nat.add_comm 1 i] using this
    have hsucc' : op (attempt + 1 + m) = .ok v := by
      have : attempt + 1 + m = attempt + (m + 1) := by omega
      rw [this]; exact hsucc
    have := ih (attempt + 1) left' hfail' hsucc' (by omega)
    simp [retryGo, hop, this.1, this.2]

theorem retryGo_failbudget {α : Type} (op : Nat → Except String α) (cfg : RetryConfig)
    (ctx : Option String) :
    ∀ (left attempt : Nat),
      (∀ j, j ≤ left → ∃ e, op (attempt + j) = .error e) →
      (retryGo op cfg ctx attempt left).attempts = left + 1 ∧
      ∃ m, (retryGo op cfg ctx attempt left).result = .error m := by
  intro left
  induction left with
  | zero =>
    intro attempt hfail
    obtain ⟨e, he⟩ := hfail 0 (Nat.le_refl 0)
    have hop : op attempt = .error e := by simpa using he
    exact ⟨by simp [retryGo, hop],
      ⟨retryFailureMessage cfg.retries ctx e, by simp [retryGo, hop]⟩⟩
  | succ l ih =>
    intro attempt hfail
    obtain ⟨e, he⟩ := hfail 0 (Nat.zero_le _)
    have hop : op attempt = .error e := by simpa using he
    have hfail' : ∀ j, j ≤ l → ∃ e, op (attempt + 1 + j) = .error e := by
      intro j hj
      have := hfail (j + 1) (by omega)
      simpa [Nat.add_assoc, Nat.add_comm 1 j] using this
    obtain ⟨ha, m, hm⟩ := ih (attempt + 1) hfail'
    exact ⟨by simp [retryGo, hop, ha], ⟨m, by simp [retryGo, hop, hm]⟩⟩

/-- C1: for every retry policy with maxRetries ≥ 0, executeWithRetry makes
exactly `min (k, maxRetries+1)` attempts, where `k` is the (1-based) index of
the first successful attempt, or `maxRetries+1` when every attempt fails; an
operation failing exactly maxRetries times then succeeding yields the success
value after maxRetries+1 attempts, and an always-failing operation is
attempted exactly maxRetries+1 times before failing. -/
theorem c1_retry_attempt_count {α : Type} (cfg : RetryConfig) (op : Nat → Except String α)
    (ctx : Option String) :
    (∀ v : α,
      (∀ i, i < cfg.retries → ∃ e, op i = .error e) → op cfg.retries = .ok v →
        (executeWithRetry op cfg ctx).result = .ok v ∧
        (executeWithRetry op cfg ctx).attempts = cfg.retries + 1) ∧
    ((∀ i, ∃ e, op i = .error e) →
        (executeWithRetry op cfg ctx).attempts = cfg.retries + 1 ∧
        ∃ m, (executeWithRetry op cfg ctx).result = .error m) ∧
    (∀ (n : Nat) (v : α),
      (∀ i, i < n → ∃ e, op i = .error e) → op n = .ok v →
        (executeWithRetry op cfg ctx).attempts = min (n + 1) (cfg.retries + 1)) := by
  refine ⟨?_, ?_, ?_⟩
  · intro v hfail hsucc
    have := retryGo_succeeds op cfg ctx v cfg.retries 0 cfg.retries
      (by intro i hi; simpa using hfail i hi) (by simpa using hsucc) (Nat.le_refl _)
    exact ⟨this.1, this.2⟩
  · intro hfail
    have := retryGo_failbudget op cfg ctx cfg.retries 0
      (by intro j _; simpa using hfail j)
    exact this
  · intro n v hfail hsucc
    rcases le_or_lt n cfg.retries with hle | hgt
    · have := retryGo_succeeds op cfg ctx v n 0 cfg.retries
        (by intro i hi; simpa using hfail i hi) (by simpa using hsucc) hle
      rw [executeWithRetry] at *
      omega
    · have := retryGo_failbudget op cfg ctx cfg.retries 0
        (by intro j hj; simpa using hfail j (by omega))
      rw [executeWithRetry] at *
      omega

theorem c1_witness :
    (executeWithRetry (fun i => if i < 2 then .error "boom" else .ok 7)
        ⟨2, 5, 3⟩ none).result = .ok 7 ∧
    (executeWithRetry (fun i => if i < 2 then .error "boom" else .ok 7)
        ⟨2, 5, 3⟩ none).attempts = 3 := by
  have h := (c1_retry_attempt_count ⟨2, 5, 3⟩
      (fun i => if i < 2 then .error "boom" else .ok 7) none).1 7
    (by intro i hi; exact ⟨"boom", by simp [hi]⟩) (by norm_num)
  exact h

theorem retryGo_lasterror {α : Type} (op : Nat → Except String α) (cfg : RetryConfig)
    (ctx : Option String) (es : Nat → String) :
    ∀ (left attempt : Nat),
      (∀ j, j ≤ left → op (attempt + j) = .error (es (attempt + j))) →
      (retryGo op cfg ctx attempt left).result =
        .error (retryFailureMessage cfg.retries ctx (es (attempt + left))) := by
  intro left
  induction left with
  | zero =>
    intro attempt hfail
    have hop : op attempt = .error (es attempt) := by simpa using hfail 0 (Nat.le_refl 0)
    simp [retryGo, hop]
  | succ l ih =>
    intro attempt hfail
    have hop : op attempt = .error (es attempt) := by simpa using hfail 0 (Nat.zero_le _)
    have hfail' : ∀ j, j ≤ l → op (attempt + 1 + j) = .error (es (attempt + 1 + j)) := by
      intro j hj
      have := hfail (j + 1) (by omega)
      have harith : attempt + (j + 1) = attempt + 1 + j := by omega
      rwa [harith] at this
    have := ih (attempt + 1) hfail'
    have harith : attempt + 1 + l = attempt + (l + 1) := by omega
    rw [harith] at this
    simp [retryGo, hop, this]

/-- C2: when every attempt fails, executeWithRetry fails with an error whose
message is exactly `Failed after (n) retries( (context)): (cause)` where n is
the configured retry count, the parenthesized context appears only when a
context label was supplied (the source tests the label for truthiness, so a
supplied empty label also yields no parenthesized part), and cause is the
final attempt's error message; this includes maxRetries = 0 after the single
attempt. -/
theorem c2_retry_exhausted_message {α : Type} (cfg : RetryConfig)
    (op : Nat → Except String α) (es : Nat → String)
    (hfail : ∀ i, i ≤ cfg.retries → op i = .error (es i)) :
    (executeWithRetry op cfg none).result =
      .error ("Failed after " ++ toString cfg.retries ++ " retries" ++ ": " ++ es cfg.retries) ∧
    (executeWithRetry op cfg (some "")).result =
      .error ("Failed after " ++ toString cfg.retries ++ " retries" ++ ": " ++ es cfg.retries) ∧
    ∀ c : String, c ≠ "" →
      (executeWithRetry op cfg (some c)).result =
        .error ("Failed after " ++ toString cfg.retries ++ " retries" ++
          (" (" ++ c ++ ")") ++ ": " ++ es cfg.retries) := by
  refine ⟨?_, ?_, ?_⟩
  · have := retryGo_lasterror op cfg none es cfg.retries 0
      (by intro j hj; simpa using hfail j hj)
    simpa [retryFailureMessage] using this
  · have := retryGo_lasterror op cfg (some "") es cfg.retries 0
      (by intro j hj; simpa using hfail j hj)
    simpa [retryFailureMessage] using this
  · intro c hc
    have := retryGo_lasterror op cfg (some c) es cfg.retries 0
      (by intro j hj; simpa using hfail j hj)
    simpa [retryFailureMessage, hc] using this

theorem c2_witness :
    (executeWithRetry (α := Nat) (fun i => .error ("e" ++ toString i)) ⟨2, 1, 2⟩ none).result =
      .error "Failed after 2 retries: e2" ∧
    (executeWithRetry (α := Nat) (fun i => .error ("e" ++ toString i)) ⟨2, 1, 2⟩
        (some "")).result =
      .error "Failed after 2 retries: e2" ∧
    (executeWithRetry (α := Nat) (fun i => .error ("e" ++ toString i)) ⟨2, 1, 2⟩
        (some "ctx")).result =
      .error "Failed after 2 retries (ctx): e2" := by
  have h := c2_retry_exhausted_message (α := Nat) ⟨2, 1, 2⟩
    (fun i => .error ("e" ++ toString i)) (fun i => "e" ++ toString i)
    (by intro i _; rfl)
  refine ⟨h.1.trans ?_, h.2.1.trans ?_, (h.2.2 "ctx" (by decide)).trans ?_⟩ <;>
    exact congrArg Except.error (by decide)

theorem retryGo_delays {α : Type} (op : Nat → Except String α) (cfg : RetryConfig)
    (ctx : Option String) :
    ∀ (left attempt : Nat),
      (retryGo op cfg ctx attempt left).delays =
        (List.range ((retryGo op cfg ctx attempt left).attempts - 1)).map
          (fun j => cfg.retryInterval * cfg.retryBackoff ^ (attempt + j)) := by
  intro left
  induction left with
  | zero =>
    intro attempt
    cases h : op attempt <;> simp [retryGo, h]
  | succ l ih =>
    intro attempt
    cases h : op attempt with
    | ok v => simp [retryGo, h]
    | error e =>
      have hpos := retryGo_attempts_pos op cfg ctx (attempt + 1) l
      obtain ⟨m, hm⟩ : ∃ m, (retryGo op cfg ctx (attempt + 1) l).attempts = m + 1 := by
        cases hh : (retryGo op cfg ctx (attempt + 1) l).attempts with
        | zero => omega
        | succ m => exact ⟨m, rfl⟩
      have hrec := ih (attempt + 1)
      rw [hm] at hrec
      simp only [retryGo, h]
      simp only [hm, Nat.add_sub_cancel, hrec, Nat.succ_sub_one]
      rw [List.range_succ_eq_map]
      simp only [List.map_cons, List.map_map, pow_zero, Nat.add_zero, Nat.mul_one]
      congr 1
      apply List.map_congr_left
      intro a _
      have h2 : attempt + (a + 1) = attempt + 1 + a := by omega
      simp [Function.comp_apply, Nat.succ_eq_add_one, h2]

/-- C3: for every retry policy, the delay inserted before attempt i (1-based,
i ≥ 2, when that attempt occurs) equals baseDelay * backoffMultiplier^(i-2),
deterministically with no jitter: the delay list is exactly
`[baseDelay*mult^0, baseDelay*mult^1, ...]` with one entry per non-final
attempt, so no delay follows the terminal failing attempt; and with
maxRetries = 0 there is exactly one attempt and no delay. -/
theorem c3_retry_delays {α : Type} (cfg : RetryConfig) (op : Nat → Except String α)
    (ctx : Option String) :
    (executeWithRetry op cfg ctx).delays =
      (List.range ((executeWithRetry op cfg ctx).attempts - 1)).map
        (fun j => cfg.retryInterval * cfg.retryBackoff ^ j) ∧
    ∀ (interval backoff : Nat) (op2 : Nat → Except String α),
      (executeWithRetry op2 ⟨0, interval, backoff⟩ ctx).attempts = 1 ∧
      (executeWithRetry op2 ⟨0, interval, backoff⟩ ctx).delays = [] := by
  constructor
  · have := retryGo_delays op cfg ctx cfg.retries 0
    simpa [executeWithRetry] using this
  · intro interval backoff op2
    cases h : op2 0 <;> simp [executeWithRetry, retryGo, h]

/- ------------------------------------------------------------------ -/
/- Theorems for the response parser (claims C4, C5, C6, C10). -/
/- ------------------------------------------------------------------ -/

theorem toList_mk (l : List Char) : (String.mk l).toList = l := rfl

theorem isFenceMark_length (s : List Char) (h : isFenceMark s = true) : 3 ≤ s.length := by
  match s with
  | [] => simp [isFenceMark] at h
  | [a] => simp [isFenceMark] at h
  | [a, b] => simp [isFenceMark] at h
  | a :: b :: c :: t => simp

theorem isFenceMark_append (l r : List Char) (h : 3 ≤ l.length) :
    isFenceMark (l ++ r) = isFenceMark l := by
  match l with
  | [] => simp at h
  | [a] => simp at h
  | [a, b] => simp at h
  | a :: b :: c :: t => simp [isFenceMark]

theorem hasFence_cons (c : Char) (r : List Char) (h : hasFence (c :: r) = false) :
    isFenceMark (c :: r) = false ∧ hasFence r = false := by
  simpa [hasFence, Bool.or_eq_false_iff] using h

theorem findClose_length : ∀ (s : List Char) (x : List Char × List Char),
    findClose s = some x → x.2.length + 3 ≤ s.length := by
  intro s
  induction s with
  | nil => intro x h; simp [findClose] at h
  | cons c rest ih =>
    intro x h
    simp only [findClose] at h
    split at h
    · rename_i hmark
      have hlen := isFenceMark_length _ hmark
      cases h
      simp only [List.length_drop, List.length_cons]
      simp at hlen
      omega
    · split at h
      · rename_i pre post hrec
        cases h
        have := ih (pre, post) hrec
        simp only [List.length_cons]
        simp at this ⊢
        omega
      · cases h

theorem takeWordRun_length : ∀ (s : List Char), (takeWordRun s).2.length ≤ s.length := by
  intro s
  induction s with
  | nil => simp [takeWordRun]
  | cons c rest ih =>
    by_cases hc : isWordChar c
    · simp only [takeWordRun, hc, if_true]
      simpa using Nat.le_succ_of_le ih
    · simp [takeWordRun, hc]

theorem matchFenceAt_length (s : List Char) (x : List Char × List Char × List Char)
    (h : matchFenceAt s = some x) : x.2.2.length < s.length := by
  obtain ⟨xt, xb, xa⟩ := x
  match s with
  | [] => simp [matchFenceAt] at h
  | [a] => simp [matchFenceAt] at h
  | [a, b] => simp [matchFenceAt] at h
  | a :: b :: c :: t =>
    simp only [matchFenceAt] at h
    cases hcond : (a == btick && b == btick && c == btick) with
    | false => rw [hcond] at h; simp at h
    | true =>
      rw [hcond] at h
      simp only [if_true] at h
      rcases hw : takeWordRun t with ⟨tag, t2⟩
      rw [hw] at h
      cases t2 with
      | nil => simp at h
      | cons c2 u =>
        dsimp only at h
        have hu : u.length < t.length := by
          have := takeWordRun_length t
          rw [hw] at this
          simp only [List.length_cons] at this
          omega
        cases hnl : (c2 == '\n') with
        | false => rw [hnl] at h; simp at h
        | true =>
          rw [hnl] at h
          simp only [if_true] at h
          cases hfc : findClose u with
          | none => rw [hfc] at h; simp at h
          | some p =>
            obtain ⟨body, rest⟩ := p
            rw [hfc] at h
            simp only [Option.some.injEq, Prod.mk.injEq] at h
            obtain ⟨-, -, hrest⟩ := h
            subst hrest
            have := findClose_length u (body, rest) hfc
            simp only [List.length_cons]
            simp at this
            omega

theorem scanFencesF_congr : ∀ (f1 f2 : Nat) (s : List Char),
    s.length ≤ f1 → s.length ≤ f2 → scanFencesF f1 s = scanFencesF f2 s := by
  intro f1
  induction f1 with
  | zero =>
    intro f2 s h1 _
    have hs : s = [] := List.length_eq_zero.mp (Nat.le_zero.mp h1)
    subst hs
    cases f2 <;> simp [scanFencesF]
  | succ f ih =>
    intro f2 s h1 h2
    cases s with
    | nil => cases f2 <;> simp [scanFencesF]
    | cons c rest =>
      obtain ⟨g, rfl⟩ : ∃ g, f2 = g + 1 := by
        cases f2 with
        | zero => simp at h2
        | succ g => exact ⟨g, rfl⟩
      cases hm : matchFenceAt (c :: rest) with
      | none =>
        have hr : rest.length ≤ f := by simp at h1; omega
        have hr2 : rest.length ≤ g := by simp at h2; omega
        simp [scanFencesF, hm, ih g rest hr hr2]
      | some x =>
        obtain ⟨tag, body, after⟩ := x
        have hl := matchFenceAt_length (c :: rest) _ hm
        simp only [List.length_cons] at hl
        have ha : after.length ≤ f := by simp at h1; omega
        have ha2 : after.length ≤ g := by simp at h2; omega
        simp [scanFencesF, hm, ih g after ha ha2]

theorem scanFences_cons_none (c : Char) (t : List Char) (h : matchFenceAt (c :: t) = none) :
    scanFences (c :: t) = ((scanFences t).1, c :: (scanFences t).2) := by
  simp [scanFences, List.length_cons, scanFencesF, h]

theorem scanFences_cons_some (c : Char) (t tag body after : List Char)
    (h : matchFenceAt (c :: t) = some (tag, body, after)) :
    scanFences (c :: t) = ((tag, body) :: (scanFences after).1, (scanFences after).2) := by
  have hlen : after.length ≤ t.length := by
    have := matchFenceAt_length (c :: t) _ h
    simp only [List.length_cons] at this
    simpa using Nat.lt_succ_iff.mp this
  have hcongr := scanFencesF_congr t.length after.length after hlen (Nat.le_refl _)
  simp [scanFences, List.length_cons, scanFencesF, h, hcongr]

theorem matchFenceAt_none_of_not_mark (s : List Char) (h : isFenceMark s = false) :
    matchFenceAt s = none := by
  match s with
  | [] => rfl
  | [a] => rfl
  | [a, b] => rfl
  | a :: b :: c :: t =>
    simp only [isFenceMark] at h
    simp [matchFenceAt, h]

theorem scanFences_clean : ∀ (t : List Char), hasFence t = false → scanFences t = ([], t) := by
  intro t
  induction t with
  | nil => intro _; rfl
  | cons c rest ih =>
    intro h
    obtain ⟨h1, h2⟩ := hasFence_cons c rest h
    rw [scanFences_cons_none c rest (matchFenceAt_none_of_not_mark _ h1), ih h2]

theorem takeWordRun_tag : ∀ (tag : List Char), tag.all isWordChar = true →
    ∀ (c : Char) (u : List Char), isWordChar c = false →
    takeWordRun (tag ++ c :: u) = (tag, c :: u) := by
  intro tag
  induction tag with
  | nil => intro _ c u hc; simp [takeWordRun, hc]
  | cons a t ih =>
    intro h c u hc
    simp only [List.all_cons, Bool.and_eq_true] at h
    simp [takeWordRun, h.1, ih h.2 c u hc]

theorem findClose_clean : ∀ (body rest : List Char),
    hasFence (body ++ [btick, btick]) = false →
    findClose (body ++ fenceMark ++ rest) = some (body, rest) := by
  intro body
  induction body with
  | nil =>
    intro rest _
    simp [fenceMark, findClose, isFenceMark]
  | cons x body' ih =>
    intro rest h
    have h' : hasFence (x :: (body' ++ [btick, btick])) = false := by simpa using h
    obtain ⟨h1, h2⟩ := hasFence_cons x (body' ++ [btick, btick]) h'
    have hmark : isFenceMark (x :: (body' ++ fenceMark ++ rest)) = false := by
      have hre : x :: (body' ++ fenceMark ++ rest) =
          (x :: (body' ++ [btick, btick])) ++ (btick :: rest) := by
        simp [fenceMark]
      rw [hre, isFenceMark_append _ _ (by simp)]
      exact h1
    have hstep : (x :: body') ++ fenceMark ++ rest = x :: (body' ++ fenceMark ++ rest) := by
      simp
    rw [hstep]
    simp only [findClose, hmark]
    have hih := ih rest h2
    rw [List.append_assoc] at hih
    simp [hih]

theorem matchFenceAt_fence (tag body rest : List Char) (htag : tag.all isWordChar = true)
    (hbody : hasFence (body ++ [btick, btick]) = false) :
    matchFenceAt (fenceRegion tag body ++ rest) = some (tag, body, rest) := by
  have hshape : fenceRegion tag body ++ rest =
      btick :: btick :: btick :: (tag ++ '\n' :: (body ++ fenceMark ++ rest)) := by
    simp [fenceRegion, fenceMark]
  rw [hshape]
  simp only [matchFenceAt, beq_self_eq_true, Bool.and_self, if_true]
  rw [takeWordRun_tag tag htag '\n' _ (by decide)]
  have hfc := findClose_clean body rest hbody
  rw [List.append_assoc] at hfc
  simp [hfc]

theorem matchFenceAt_pre (c : Char) (p r : List Char) (h : hasFence (c :: p) = false) :
    matchFenceAt ((c :: p) ++ fenceMark ++ r) = none := by
  have hbw : isWordChar btick = false := by decide
  have hbn : (btick == '\n') = false := by decide
  match p with
  | [] =>
    show matchFenceAt (c :: btick :: btick :: (btick :: r)) = none
    cases hc : (c == btick) with
    | false => simp [matchFenceAt, hc]
    | true => simp [matchFenceAt, hc, takeWordRun, hbw, hbn]
  | [c2] =>
    show matchFenceAt (c :: c2 :: btick :: (btick :: btick :: r)) = none
    cases hc : (c == btick && c2 == btick && btick == btick) with
    | false => simp only [matchFenceAt]; rw [hc]; rfl
    | true => simp [matchFenceAt, hc, takeWordRun, hbw, hbn]
  | c2 :: c3 :: p' =>
    obtain ⟨h1, -⟩ := hasFence_cons c (c2 :: c3 :: p') h
    simp only [isFenceMark] at h1
    show matchFenceAt (c :: c2 :: c3 :: (p' ++ fenceMark ++ r)) = none
    simp [matchFenceAt, h1]

theorem scanFences_skip : ∀ (p r : List Char), hasFence p = false →
    scanFences (p ++ fenceMark ++ r) =
      ((scanFences (fenceMark ++ r)).1, p ++ (scanFences (fenceMark ++ r)).2) := by
  intro p
  induction p with
  | nil => intro r _; simp
  | cons c p' ih =>
    intro r h
    obtain ⟨-, h2⟩ := hasFence_cons c p' h
    have hnone := matchFenceAt_pre c p' r h
    have heq : (c :: p') ++ fenceMark ++ r = c :: (p' ++ fenceMark ++ r) := by simp
    rw [heq] at hnone
    rw [heq, scanFences_cons_none _ _ hnone, ih r h2]
    simp

theorem scanFences_assemble : ∀ (segs : List FenceSeg) (tl : List Char),
    (∀ s ∈ segs, WellFencedSeg s) → hasFence tl = false →
    scanFences (assembleChars segs tl) =
      (segs.map (fun s => (s.tag, s.body)), (segs.map FenceSeg.pre).flatten ++ tl) := by
  intro segs
  induction segs with
  | nil => intro tl _ htl; simpa [assembleChars] using scanFences_clean tl htl
  | cons s rest ih =>
    intro tl hseg htl
    obtain ⟨hpre, htag, hbody⟩ := hseg s (List.mem_cons_self s rest)
    have hrest : ∀ x ∈ rest, WellFencedSeg x := fun x hx => hseg x (List.mem_cons_of_mem _ hx)
    have hshape : assembleChars (s :: rest) tl =
        s.pre ++ fenceMark ++
          (s.tag ++ '\n' :: (s.body ++ fenceMark ++ assembleChars rest tl)) := by
      simp [assembleChars, fenceRegion, fenceMark]
    have hfence : matchFenceAt
        (btick :: btick :: btick ::
          (s.tag ++ '\n' :: (s.body ++ fenceMark ++ assembleChars rest tl))) =
        some (s.tag, s.body, assembleChars rest tl) := by
      have := matchFenceAt_fence s.tag s.body (assembleChars rest tl) htag hbody
      have hre : fenceRegion s.tag s.body ++ assembleChars rest tl =
          btick :: btick :: btick ::
            (s.tag ++ '\n' :: (s.body ++ fenceMark ++ assembleChars rest tl)) := by
        simp [fenceRegion, fenceMark]
      rwa [hre] at this
    rw [hshape, scanFences_skip _ _ hpre]
    have hmid : fenceMark ++ (s.tag ++ '\n' :: (s.body ++ fenceMark ++ assembleChars rest tl)) =
        btick :: (btick :: btick ::
          (s.tag ++ '\n' :: (s.body ++ fenceMark ++ assembleChars rest tl))) := by
      simp [fenceMark]
    rw [hmid, scanFences_cons_some _ _ _ _ _ hfence, ih tl hrest htl]
    simp

theorem foldl_removeTagged_id : ∀ (ps : List (List Char × List Char)) (x : List Char),
    (∀ p ∈ ps, matchTagged p.1 p.2 x = none) →
    ps.foldl (fun acc p => removeTagged p.1 p.2 acc) x = x := by
  intro ps
  induction ps with
  | nil => intro x _; rfl
  | cons p rest ih =>
    intro x h
    have hp := h p (List.mem_cons_self p rest)
    have hrest : ∀ q ∈ rest, matchTagged q.1 q.2 x = none :=
      fun q hq => h q (List.mem_cons_of_mem _ hq)
    simp only [List.foldl_cons, removeTagged, hp]
    exact ih x hrest

/-- C4: for every input text containing N non-overlapping fenced regions
(triple-backtick marker, an optional \w* language tag followed by a newline,
closed by the next triple-backtick marker), parseResponse returns codeBlocks
of length exactly N, in left-to-right order, each with language equal to the
tag (or "text" when the tag is empty) and code equal to the trimmed inner
text; in particular the spec fixture yields the stated single python block
and content "Hello\n\nDone". -/
theorem c4_parse_code_blocks (segs : List FenceSeg) (tl : List Char)
    (hseg : ∀ s ∈ segs, WellFencedSeg s) (htl : hasFence tl = false) :
    (parseResponse (String.mk (assembleChars segs tl))).codeBlocks =
      segs.map (fun s => { language := langOf s.tag, code := String.mk (jsTrim s.body) }) ∧
    (parseResponse "Hello\n```python\ndef add(a,b):\n  return a+b\n```\nDone").codeBlocks =
      [{ language := "python", code := "def add(a,b):\n  return a+b" }] ∧
    (parseResponse "Hello\n```python\ndef add(a,b):\n  return a+b\n```\nDone").content =
      "Hello\n\nDone" := by
  refine ⟨?_, by decide, by decide⟩
  have hs := scanFences_assemble segs tl hseg htl
  simp only [parseResponse, toList_mk, hs, List.map_map]
  rfl

theorem c4_witness :
    (parseResponse (String.mk (assembleChars
        [⟨"Hello\n".toList, "python".toList, "def add(a,b):\n  return a+b\n".toList⟩]
        "\nDone".toList))).codeBlocks =
      [{ language := "python", code := "def add(a,b):\n  return a+b" }] := by
  have h := (c4_parse_code_blocks
      [⟨"Hello\n".toList, "python".toList, "def add(a,b):\n  return a+b\n".toList⟩]
      "\nDone".toList (by decide) (by decide)).1
  exact h.trans (by decide)

/-- C10: parseResponse is a total function (it is defined for every input
string), and its result always carries toolCalls equal to the empty list, so
no input ever produces tool calls from parsing alone. -/
theorem c10_toolCalls_empty (s : String) : (parseResponse s).toolCalls = [] := rfl

/-- C5 counterexample: on an input holding both a thinking-tag region and a
thought-tag region, the source removes both regions from the content (the
cleanup loop applies every pattern), while the claim predicts that only the
one matched thinking region is removed; the two results differ. -/
theorem c5_counterexample :
    (parseResponse "x<thinking>a</thinking>y<thought>b</thought>z").content = "xyz" ∧
    (parseResponse "x<thinking>a</thinking>y<thought>b</thought>z").thinking = some "a" ∧
    contentPerClaimC5 "x<thinking>a</thinking>y<thought>b</thought>z" =
      "xy<thought>b</thought>z" ∧
    ("xyz" : String) ≠ "xy<thought>b</thought>z" := by
  refine ⟨by decide, by decide, by decide, by decide⟩

/-- C5 amended: content equals the original text with every fenced region
removed and then, for each of the three thinking patterns in their fixed
order, the first match of that pattern removed (so up to three thinking
regions can be removed, not only the first-matching pattern's single
region), then trimmed; when no thinking pattern matches the fence-stripped
text, content is exactly the fence-stripped text trimmed. -/
theorem c5_amended_content (segs : List FenceSeg) (tl : List Char)
    (hseg : ∀ s ∈ segs, WellFencedSeg s) (htl : hasFence tl = false) :
    (parseResponse (String.mk (assembleChars segs tl))).content =
      String.mk (jsTrim (thinkingPatterns.foldl (fun acc p => removeTagged p.1 p.2 acc)
        ((segs.map FenceSeg.pre).flatten ++ tl))) ∧
    ((∀ p ∈ thinkingPatterns,
        matchTagged p.1 p.2 ((segs.map FenceSeg.pre).flatten ++ tl) = none) →
      (parseResponse (String.mk (assembleChars segs tl))).content =
        String.mk (jsTrim ((segs.map FenceSeg.pre).flatten ++ tl))) := by
  have hs := scanFences_assemble segs tl hseg htl
  constructor
  · simp only [parseResponse, toList_mk, hs]
  · intro hnone
    simp only [parseResponse, toList_mk, hs]
    rw [foldl_removeTagged_id thinkingPatterns _ hnone]

theorem c5_witness :
    (parseResponse (String.mk (assembleChars
        [⟨"A ".toList, "".toList, "b\n".toList⟩]
        " <thinking>t</thinking>".toList))).content = "A" := by
  have h := (c5_amended_content [⟨"A ".toList, "".toList, "b\n".toList⟩]
      " <thinking>t</thinking>".toList (by decide) (by decide)).1
  exact h.trans (by decide)

theorem extractThinking_skip : ∀ (ps1 ps2 : List (List Char × List Char)) (s : List Char),
    (∀ p ∈ ps1, matchTagged p.1 p.2 s = none) →
    extractThinking (ps1 ++ ps2) s = extractThinking ps2 s := by
  intro ps1
  induction ps1 with
  | nil => intro ps2 s _; rfl
  | cons p rest ih =>
    intro ps2 s h
    have hp := h p (List.mem_cons_self p rest)
    have hrest : ∀ q ∈ rest, matchTagged q.1 q.2 s = none :=
      fun q hq => h q (List.mem_cons_of_mem _ hq)
    simp only [List.cons_append, extractThinking, hp]
    exact ih ps2 s hrest

/-- C6 counterexample: the source matches the thinking patterns against the
original input, not against the fence-stripped text as the claim states; on
an input whose only thinking tags lie inside a fenced code block, the source
still extracts them while the claim predicts no thinking. -/
theorem c6_counterexample :
    (parseResponse "```x\n<thinking>hidden</thinking>\n```").thinking = some "hidden" ∧
    thinkingPerClaimC6 "```x\n<thinking>hidden</thinking>\n```" = none ∧
    (some "hidden" : Option String) ≠ none := by
  refine ⟨by decide, by decide, by decide⟩

/-- C6 amended: the thinking field is determined by matching the paired-tag
patterns, in their fixed order, against the original input text (not the
fence-stripped text): the first pattern that matches anywhere supplies
thinking as its trimmed inner text, at most one thinking region is ever
extracted, and the absence of any match yields an absent thinking field
rather than a failure. -/
theorem c6_amended_thinking (s : String) :
    ((∀ p ∈ thinkingPatterns, matchTagged p.1 p.2 s.toList = none) →
      (parseResponse s).thinking = none) ∧
    (∀ (ps1 ps2 : List (List Char × List Char)) (o c b inner a : List Char),
      thinkingPatterns = ps1 ++ (o, c) :: ps2 →
      (∀ p ∈ ps1, matchTagged p.1 p.2 s.toList = none) →
      matchTagged o c s.toList = some (b, inner, a) →
      (parseResponse s).thinking = some (String.mk (jsTrim inner))) := by
  constructor
  · intro h
    have hpast := extractThinking_skip thinkingPatterns [] s.toList h
    simp only [List.append_nil] at hpast
    simp only [parseResponse]
    rw [hpast]
    rfl
  · intro ps1 ps2 o c b inner a heq h1 hm
    simp only [parseResponse]
    rw [heq, extractThinking_skip ps1 _ _ h1]
    simp only [extractThinking]
    rw [hm]
    rfl

theorem c6_witness :
    (parseResponse "<thought>hi</thought>").thinking = some "hi" := by
  have h := (c6_amended_thinking "<thought>hi</thought>").2
    [("<thinking>".toList, "</thinking>".toList)]
    [("[thinking]".toList, "[/thinking]".toList)]
    "<thought>".toList "</thought>".toList
    [] "hi".toList [] rfl (by decide) (by decide)
  exact h.trans (by decide)

/- ------------------------------------------------------------------ -/
/- Theorems for the streaming handlers (claims C7, C8). -/
/- ------------------------------------------------------------------ -/

theorem string_join_cons (a : String) (l : List String) :
    String.join (a :: l) = a ++ String.join l := by
  apply String.ext
  simp [String.data_join, String.data_append]

theorem string_join_append (xs ys : List String) :
    String.join (xs ++ ys) = String.join xs ++ String.join ys := by
  apply String.ext
  simp [String.data_join, String.data_append]

theorem string_join_map_mk : ∀ (l : List (List Char)),
    String.join (l.map String.mk) = String.mk l.flatten := by
  intro l
  induction l with
  | nil => rfl
  | cons a t ih =>
    simp only [List.map_cons, string_join_cons, ih]
    rfl

theorem anthHandleChunk_nostop : ∀ (ls : List SSELine) (st : StreamRunState),
    (∀ l ∈ ls, l.ty ≠ "message_stop") → st.result = none →
    anthHandleChunk st ls =
      { fullContent := st.fullContent ++ String.join (lineDeltas ls)
        deltasBefore := st.deltasBefore ++ lineDeltas ls
        deltasAfter := st.deltasAfter
        result := none } := by
  intro ls
  induction ls with
  | nil =>
    intro st _ hr
    obtain ⟨f, b, a, r⟩ := st
    simp only at hr
    subst hr
    simp [anthHandleChunk, lineDeltas, String.join]
  | cons l rest ih =>
    intro st hstop hr
    have hlstop : l.ty ≠ "message_stop" := hstop l (List.mem_cons_self l rest)
    have hreststop : ∀ x ∈ rest, x.ty ≠ "message_stop" :=
      fun x hx => hstop x (List.mem_cons_of_mem _ hx)
    cases hd : isDeltaLine l with
    | true =>
      have hemit : anthEmit st (l.deltaText.getD "") =
          { fullContent := st.fullContent ++ l.deltaText.getD ""
            deltasBefore := st.deltasBefore ++ [l.deltaText.getD ""]
            deltasAfter := st.deltasAfter
            result := none } := by
        obtain ⟨f, b, a, r⟩ := st
        simp only at hr
        subst hr
        simp [anthEmit]
      simp only [anthHandleChunk, hd, if_true]
      rw [hemit, ih _ hreststop rfl]
      simp only [lineDeltas, List.filterMap_cons, hd]
      simp [string_join_cons, String.append_assoc]
    | false =>
      have hbne : (l.ty == "message_stop") = false := by
        simpa using hlstop
      simp only [anthHandleChunk, hd, Bool.false_eq_true, if_false, hbne]
      rw [ih _ hreststop hr]
      simp [lineDeltas, List.filterMap_cons, hd]

theorem anthHandleChunk_last (d : Option String) : ∀ (chBody : List SSELine)
    (st : StreamRunState), (∀ l ∈ chBody, l.ty ≠ "message_stop") → st.result = none →
    anthHandleChunk st (chBody ++ [⟨"message_stop", d⟩]) =
      { fullContent := st.fullContent ++ String.join (lineDeltas chBody)
        deltasBefore := st.deltasBefore ++ lineDeltas chBody
        deltasAfter := st.deltasAfter
        result := some (st.fullContent ++ String.join (lineDeltas chBody)) } := by
  intro chBody
  induction chBody with
  | nil =>
    intro st _ hr
    obtain ⟨f, b, a, r⟩ := st
    simp only at hr
    subst hr
    simp [anthHandleChunk, isDeltaLine, anthResolve, lineDeltas, String.join]
  | cons l rest ih =>
    intro st hstop hr
    have hlstop : l.ty ≠ "message_stop" := hstop l (List.mem_cons_self l rest)
    have hreststop : ∀ x ∈ rest, x.ty ≠ "message_stop" :=
      fun x hx => hstop x (List.mem_cons_of_mem _ hx)
    cases hd : isDeltaLine l with
    | true =>
      have hemit : anthEmit st (l.deltaText.getD "") =
          { fullContent := st.fullContent ++ l.deltaText.getD ""
            deltasBefore := st.deltasBefore ++ [l.deltaText.getD ""]
            deltasAfter := st.deltasAfter
            result := none } := by
        obtain ⟨f, b, a, r⟩ := st
        simp only at hr
        subst hr
        simp [anthEmit]
      simp only [List.cons_append, anthHandleChunk, hd, if_true, List.append_eq]
      rw [hemit]
      rw [ih { fullContent := st.fullContent ++ l.deltaText.getD ""
               deltasBefore := st.deltasBefore ++ [l.deltaText.getD ""]
               deltasAfter := st.deltasAfter
               result := none } hreststop rfl]
      simp only [lineDeltas, List.filterMap_cons, hd]
      simp [string_join_cons, String.append_assoc]
    | false =>
      have hbne : (l.ty == "message_stop") = false := by
        simpa using hlstop
      simp only [List.cons_append, anthHandleChunk, hd, Bool.false_eq_true, if_false, hbne,
        List.append_eq]
      rw [ih st hreststop hr]
      simp [lineDeltas, List.filterMap_cons, hd]

theorem anthStream_pre : ∀ (pre : List (List SSELine)) (st : StreamRunState),
    (∀ ch ∈ pre, ∀ l ∈ ch, l.ty ≠ "message_stop") → st.result = none →
    pre.foldl anthHandleChunk st =
      { fullContent := st.fullContent ++ String.join (lineDeltas pre.flatten)
        deltasBefore := st.deltasBefore ++ lineDeltas pre.flatten
        deltasAfter := st.deltasAfter
        result := none } := by
  intro pre
  induction pre with
  | nil =>
    intro st _ hr
    obtain ⟨f, b, a, r⟩ := st
    simp only at hr
    subst hr
    simp [lineDeltas, String.join]
  | cons ch pre' ih =>
    intro st hstop hr
    have hch : ∀ l ∈ ch, l.ty ≠ "message_stop" := hstop ch (List.mem_cons_self ch pre')
    have hpre' : ∀ c ∈ pre', ∀ l ∈ c, l.ty ≠ "message_stop" :=
      fun c hc => hstop c (List.mem_cons_of_mem _ hc)
    simp only [List.foldl_cons]
    rw [anthHandleChunk_nostop ch st hch hr, ih _ hpre' rfl]
    simp only [List.flatten_cons, lineDeltas, List.filterMap_append]
    simp [string_join_append, String.append_assoc, lineDeltas]

/-- C7 counterexample: when the upstream delivers a further delta line in a
transport fragment after the terminal message_stop, the source still invokes
the sink with it after the promise has resolved, and the concatenation of
all delivered deltas no longer equals the fullText carried at resolution;
the claim asserts neither ever happens. -/
theorem c7_counterexample :
    (anthStream [[⟨"content_block_delta", some "a"⟩], [⟨"message_stop", none⟩],
        [⟨"content_block_delta", some "b"⟩]]).result = some "a" ∧
    (anthStream [[⟨"content_block_delta", some "a"⟩], [⟨"message_stop", none⟩],
        [⟨"content_block_delta", some "b"⟩]]).deltasAfter = ["b"] ∧
    String.join ((anthStream [[⟨"content_block_delta", some "a"⟩], [⟨"message_stop", none⟩],
        [⟨"content_block_delta", some "b"⟩]]).deltasBefore ++
      (anthStream [[⟨"content_block_delta", some "a"⟩], [⟨"message_stop", none⟩],
        [⟨"content_block_delta", some "b"⟩]]).deltasAfter) ≠ "a" := by
  refine ⟨by decide, by decide, by decide⟩

/-- C7 amended: for every streaming invocation whose terminal message_stop
event is the last line delivered, the concatenation of all text deltas
delivered to the sink, in delivery order, equals the accumulated full text
carried at the terminal completion, and no delta is delivered after the
terminal event resolves; delta lines arriving in transport fragments after
the terminal would, however, still be forwarded to the sink (modelled on the
Anthropic stream handler, whose structure Ollama's NDJSON handler shares). -/
theorem c7_stream_deltas (pre : List (List SSELine)) (chBody : List SSELine) (d : Option String)
    (h1 : ∀ ch ∈ pre, ∀ l ∈ ch, l.ty ≠ "message_stop")
    (h2 : ∀ l ∈ chBody, l.ty ≠ "message_stop") :
    (anthStream (pre ++ [chBody ++ [⟨"message_stop", d⟩]])).result =
      some ((anthStream (pre ++ [chBody ++ [⟨"message_stop", d⟩]])).fullContent) ∧
    (anthStream (pre ++ [chBody ++ [⟨"message_stop", d⟩]])).fullContent =
      String.join ((anthStream (pre ++ [chBody ++ [⟨"message_stop", d⟩]])).deltasBefore) ∧
    (anthStream (pre ++ [chBody ++ [⟨"message_stop", d⟩]])).deltasAfter = [] := by
  have hfold : anthStream (pre ++ [chBody ++ [⟨"message_stop", d⟩]]) =
      anthHandleChunk (pre.foldl anthHandleChunk
        { fullContent := "", deltasBefore := [], deltasAfter := [], result := none })
        (chBody ++ [⟨"message_stop", d⟩]) := by
    simp [anthStream, List.foldl_append]
  rw [hfold, anthStream_pre pre _ h1 rfl, anthHandleChunk_last d chBody _ h2 rfl]
  refine ⟨rfl, ?_, rfl⟩
  simp [string_join_append, String.empty_append, String.append_assoc]

theorem c7_witness :
    (anthStream ([[⟨"content_block_delta", some "he"⟩]] ++
        [[⟨"content_block_delta", some "y"⟩] ++ [⟨"message_stop", none⟩]])).result =
      some ((anthStream ([[⟨"content_block_delta", some "he"⟩]] ++
        [[⟨"content_block_delta", some "y"⟩] ++ [⟨"message_stop", none⟩]])).fullContent) ∧
    (anthStream ([[⟨"content_block_delta", some "he"⟩]] ++
        [[⟨"content_block_delta", some "y"⟩] ++ [⟨"message_stop", none⟩]])).fullContent =
      String.join ((anthStream ([[⟨"content_block_delta", some "he"⟩]] ++
        [[⟨"content_block_delta", some "y"⟩] ++ [⟨"message_stop", none⟩]])).deltasBefore) ∧
    (anthStream ([[⟨"content_block_delta", some "he"⟩]] ++
        [[⟨"content_block_delta", some "y"⟩] ++ [⟨"message_stop", none⟩]])).deltasAfter = [] :=
  c7_stream_deltas [[⟨"content_block_delta", some "he"⟩]]
    [⟨"content_block_delta", some "y"⟩] none (by decide) (by decide)

theorem splitOnSpace_ne_nil : ∀ (s : List Char), splitOnSpace s ≠ [] := by
  intro s
  cases s with
  | nil => simp [splitOnSpace]
  | cons c rest =>
    simp only [splitOnSpace]
    split
    · simp
    · split <;> simp

theorem joinWithSpace_splitOnSpace : ∀ (s : List Char), joinWithSpace (splitOnSpace s) = s := by
  intro s
  induction s with
  | nil => rfl
  | cons c rest ih =>
    by_cases hc : c = ' '
    · subst hc
      simp only [splitOnSpace, if_pos rfl]
      obtain ⟨w, ws, hw⟩ : ∃ w ws, splitOnSpace rest = w :: ws := by
        cases h : splitOnSpace rest with
        | nil => exact absurd h (splitOnSpace_ne_nil rest)
        | cons w ws => exact ⟨w, ws, rfl⟩
      rw [hw]
      rw [hw] at ih
      simpa [joinWithSpace] using ih
    · simp only [splitOnSpace, if_neg hc]
      cases h : splitOnSpace rest with
      | nil => exact absurd h (splitOnSpace_ne_nil rest)
      | cons w ws =>
        rw [h] at ih
        cases ws with
        | nil =>
          simp only [joinWithSpace] at ih ⊢
          rw [ih]
        | cons w2 ws2 =>
          simp only [joinWithSpace] at ih ⊢
          simp [← ih]

theorem chunksOf_ne_nil : ∀ (ws : List (List Char)), ws ≠ [] → chunksOf ws ≠ [] := by
  intro ws h
  match ws with
  | [w] => simp [chunksOf]
  | w :: w2 :: ws2 => simp [chunksOf]

theorem chunksOf_flatten : ∀ (ws : List (List Char)),
    (chunksOf ws).flatten = joinWithSpace ws := by
  intro ws
  induction ws with
  | nil => rfl
  | cons w ws ih =>
    cases ws with
    | nil => simp [chunksOf, joinWithSpace]
    | cons w2 ws2 =>
      simp only [chunksOf, joinWithSpace, List.flatten_cons] at ih ⊢
      rw [ih]
      simp

/-- C8: for every source text, the simulated streaming variant invokes the
delta sink at least once, delivers the chunks in original left-to-right
order, and the concatenation of all delivered chunks equals the source text
exactly, with no characters dropped or duplicated — including inputs with
consecutive spaces, whose empty split fields re-assemble into the original
runs of spaces. -/
theorem c8_simulate_streaming (content : String) :
    simulateStreaming content ≠ [] ∧
    String.join (simulateStreaming content) = content := by
  constructor
  · simp only [simulateStreaming, ne_eq, List.map_eq_nil_iff]
    exact chunksOf_ne_nil _ (splitOnSpace_ne_nil _)
  · rw [simulateStreaming, string_join_map_mk, chunksOf_flatten, joinWithSpace_splitOnSpace]
    rfl

/- ------------------------------------------------------------------ -/
/- Theorems for the dispatcher (claim C9). -/
/- ------------------------------------------------------------------ -/

/-- C9 counterexample: `if (options.system)` is a JavaScript truthiness
test, so a present but empty system option is not prepended, while the claim
predicts a system message whenever options.system is present. -/
theorem c9_counterexample :
    (llmChat "hi" { system := some "" }).messages =
      [{ role := Role.user, content := "hi" }] ∧
    messagesPerClaimC9 "hi" { system := some "" } =
      [{ role := Role.system, content := "" }, { role := Role.user, content := "hi" }] ∧
    ([{ role := Role.user, content := "hi" }] : List ChatMessage) ≠
      [{ role := Role.system, content := "" }, { role := Role.user, content := "hi" }] := by
  refine ⟨by decide, by decide, by decide⟩

/-- C9 amended: the message sequence passed to the transport is exactly a
system-role message carrying options.system prepended if and only if
options.system is present and non-empty, followed by one user-role message
carrying the text; the retry policy passed to the retry engine is derived
from options.retries/retryInterval/retryBackoff with each field
independently falling back to its default (1, 1000 ms, 2) when absent. -/
theorem c9_chat_messages_policy (content : String) (options : ChatOptions) :
    (options.system = none ∨ options.system = some "" →
      (llmChat content options).messages = [{ role := Role.user, content := content }]) ∧
    (∀ s, options.system = some s → s ≠ "" →
      (llmChat content options).messages =
        [{ role := Role.system, content := s }, { role := Role.user, content := content }]) ∧
    (llmChat content options).config.retries = options.retries.getD 1 ∧
    (llmChat content options).config.retryInterval = options.retryInterval.getD 1000 ∧
    (llmChat content options).config.retryBackoff = options.retryBackoff.getD 2 := by
  refine ⟨?_, ?_, rfl, rfl, rfl⟩
  · rintro (h | h) <;> simp [llmChat, buildChatMessages, h]
  · intro s hs hne
    simp [llmChat, buildChatMessages, hs, hne]

theorem c9_witness :
    (llmChat "hi" { system := some "sys", retries := some 0 }).messages =
      [{ role := Role.system, content := "sys" }, { role := Role.user, content := "hi" }] ∧
    (llmChat "hi" { system := some "sys", retries := some 0 }).config.retries = 0 := by
  have h := c9_chat_messages_policy "hi" { system := some "sys", retries := some 0 }
  exact ⟨h.2.1 "sys" rfl (by decide), h.2.2.1.trans rfl⟩
